import Mathlib

/-!
Shallow embedding of the distributed video filter pipeline
(`distributor.py`, `worker.py`).

The distributor's reorder buffer is a Python `dict` keyed by frame index.
Every observation the code makes of that dict is key-based (membership,
per-key lookup and delete, size, `sorted(keys)`), so the dict is embedded
as a strictly-sorted association list: the operations below mirror the
source lines, and the sortedness invariant is carried as a hypothesis
where a proof needs it.

Opaque values are embedded as follows: frame payload bytes as `Nat`,
wall-clock timestamps as `Nat` (they are only ever carried along, never
computed with), prompts as `String`.  Frame indices and the counters are
`Int` (Python integers; `latest_received_frame` and `last_frame_sent`
start at `-1`).
-/

namespace DVF

/-- One value of the reorder buffer `received_frames[idx]`:
the metadata stored by `Distributor.check_inverter_output`. -/
structure Entry where
  frame_data : Nat
  process_id : Nat
  start_time : Nat
  end_time : Nat
deriving Repr, DecidableEq

/-- The reorder buffer `received_frames`: a Python dict `index -> entry`,
embedded as an association list kept strictly sorted by key. -/
abbrev Buffer := List (Int × Entry)

/-- Keys of the buffer (the dict's key set, in sorted order). -/
def bufKeys (b : Buffer) : List Int := b.map Prod.fst

/-- Dict lookup `received_frames[k]`. -/
def bufLookup (k : Int) : Buffer → Option Entry
  | [] => none
  | (k', e) :: rest => if k = k' then some e else bufLookup k rest

/-- Dict store `received_frames[k] = e`, keeping the list sorted. -/
def bufInsert (k : Int) (e : Entry) : Buffer → Buffer
  | [] => [(k, e)]
  | (k', e') :: rest =>
    if k < k' then (k, e) :: (k', e') :: rest
    else if k = k' then (k, e) :: rest
    else (k', e') :: bufInsert k e rest

/-- A frame as enqueued by `add_frame_for_distribution`. -/
structure Frame where
  frame : Nat
  frame_index : Int
  timestamp : Nat
  prompt : String
deriving Repr, DecidableEq

/-- The capture slot `current_frame_data` kept by the fan-out loop. -/
structure CurrentFrameData where
  frame : Nat
  frame_index : Int
  prompt : String
deriving Repr, DecidableEq

/-- A trace record appended to `frame_timings`. -/
inductive TraceEvent where
  | instant (frame_index : Int) (timestamp : Nat) (event_type : String)
  | complete (frame_index : Int) (begin_time : Nat) (end_time : Nat)
      (event_type : String) (pid : Nat)
deriving Repr, DecidableEq

/-- A five-part message on the collection channel, as read by
`check_inverter_output` (index parsed to int, timestamps to float). -/
structure InMsg where
  frame_index : Int
  process_id : Nat
  start_time : Nat
  end_time : Nat
  inverted_data : Nat
deriving Repr, DecidableEq

/-- A `(client_id, index, prompt, payload)` message sent on the
distribution channel by `handle_distribute_requests`. -/
structure SentMsg where
  client_id : Nat
  frame_index : Int
  prompt : String
  frame : Nat
deriving Repr, DecidableEq

/-- The mutable state of a `Distributor`. -/
structure DState where
  frame_queue : List Frame
  frame_index_counter : Int
  last_frame_sent : Int
  received_frames : Buffer
  current_display_frame : Int
  latest_received_frame : Int
  frame_buffer_size : Nat
  frame_delay : Int
  enable_trace_export : Bool
  current_frame_data : Option CurrentFrameData
  frame_timings : List TraceEvent
deriving Repr, DecidableEq

/-- `Distributor.__init__`. -/
def initState (frame_delay : Int := 5) (enable_trace_export : Bool := false) : DState :=
  { frame_queue := []
    frame_index_counter := 0
    last_frame_sent := -1
    received_frames := []
    current_display_frame := 0
    latest_received_frame := -1
    frame_buffer_size := 50
    frame_delay := frame_delay
    enable_trace_export := enable_trace_export
    current_frame_data := none
    frame_timings := [] }

/-- `Distributor.log_frame_timing`. -/
def log_frame_timing (s : DState) (frame_index : Int) (timestamp : Nat)
    (event_type : String) : DState :=
  if s.enable_trace_export then
    { s with frame_timings :=
        s.frame_timings ++ [.instant frame_index timestamp event_type] }
  else s

/-- `Distributor.log_frame_complete_timing`. -/
def log_frame_complete_timing (s : DState) (frame_index : Int)
    (begin_time end_time : Nat) (event_type : String) (pid : Nat) : DState :=
  if s.enable_trace_export then
    { s with frame_timings :=
        s.frame_timings ++ [.complete frame_index begin_time end_time event_type pid] }
  else s

/-- `Distributor.add_frame_for_distribution`.  The queue has capacity 10;
on overflow the oldest pending frame is evicted and the put retried (the
retry cannot overflow again in the single-producer setting, and on that
path no capture trace event is logged, as in the source). -/
def add_frame_for_distribution (s : DState) (frame : Nat) (timestamp : Nat)
    (prompt : String) : DState :=
  let frame_index := s.frame_index_counter
  let s := { s with frame_index_counter := s.frame_index_counter + 1 }
  let frame_data : Frame := ⟨frame, frame_index, timestamp, prompt⟩
  if s.frame_queue.length < 10 then
    log_frame_timing { s with frame_queue := s.frame_queue ++ [frame_data] }
      frame_index timestamp "frame_captured"
  else
    { s with frame_queue := s.frame_queue.tail ++ [frame_data] }

/-- One iteration of the `Distributor.handle_distribute_requests` loop:
drain at most one frame from the queue into the capture slot, then
(optionally) answer one `READY` poll from `ready`.  Returns the message
sent on the distribution socket, if any. -/
def handle_distribute_iteration (s : DState) (ready : Option Nat) :
    DState × Option SentMsg :=
  let s :=
    match s.frame_queue with
    | [] => s
    | fd :: rest =>
      { s with frame_queue := rest
               current_frame_data := some ⟨fd.frame, fd.frame_index, fd.prompt⟩ }
  match ready with
  | none => (s, none)
  | some client_id =>
    match s.current_frame_data with
    | none => (s, none)
    | some cfd =>
      if s.last_frame_sent < cfd.frame_index then
        ({ s with last_frame_sent := cfd.frame_index },
         some ⟨client_id, cfd.frame_index, cfd.prompt, cfd.frame⟩)
      else (s, none)

/-- `Distributor.cleanup_old_frames`: purge every entry below
`current_display_frame`, then, if more than `frame_buffer_size` entries
remain, delete the smallest-index entries (`sorted(keys)[:len - size]`,
a `drop` on the sorted representation) down to the bound. -/
def cleanup_old_frames (s : DState) : DState :=
  let kept := s.received_frames.filter
    (fun p => !decide (p.1 < s.current_display_frame))
  if s.frame_buffer_size < kept.length then
    { s with received_frames := kept.drop (kept.length - s.frame_buffer_size) }
  else
    { s with received_frames := kept }

/-- One delivery handled by the `Distributor.check_inverter_output` loop:
drop the message when its index exceeds `frame_index_counter`, otherwise
log the complete trace event, store the entry, raise
`latest_received_frame` and run `cleanup_old_frames`. -/
def check_inverter_output (s : DState) (msg : InMsg) : DState :=
  if s.frame_index_counter < msg.frame_index then
    s
  else
    let s := log_frame_complete_timing s msg.frame_index msg.start_time
      msg.end_time "frame_inverted_received" msg.process_id
    let s := { s with
      received_frames := bufInsert msg.frame_index
        ⟨msg.inverted_data, msg.process_id, msg.start_time, msg.end_time⟩
        s.received_frames
      latest_received_frame := max s.latest_received_frame msg.frame_index }
    cleanup_old_frames s

/-- `Distributor.get_frame_to_display`: the entry at
`current_display_frame` if present, else the entry whose index is closest
(`min(sorted(keys), key + abs distance)`, first minimizer kept on ties),
else `none`. -/
def get_frame_to_display (s : DState) : Option Nat :=
  let target := s.current_display_frame
  match bufLookup target s.received_frames with
  | some e => some e.frame_data
  | none =>
    match s.received_frames with
    | [] => none
    | (k₀, _) :: rest =>
      let closest_frame := (bufKeys rest).foldl
        (fun best x =>
          if (x - target).natAbs < (best - target).natAbs then x else best) k₀
      (bufLookup closest_frame s.received_frames).map Entry.frame_data

/-- `Distributor.update_display_frame`.  Both arms of the inner branch of
the source assign `current_display_frame = target_frame` and return
`True`; the branch structure is kept as written. -/
def update_display_frame (s : DState) : DState × Bool :=
  if s.frame_delay ≤ s.latest_received_frame then
    let target_frame := s.latest_received_frame - s.frame_delay
    if (bufLookup target_frame s.received_frames).isSome ∨
        s.current_display_frame < target_frame then
      ({ s with current_display_frame := target_frame }, true)
    else
      ({ s with current_display_frame := target_frame }, true)
  else if 0 < s.latest_received_frame then
    if s.current_display_frame < s.latest_received_frame then
      ({ s with current_display_frame := s.latest_received_frame }, true)
    else (s, false)
  else (s, false)

/-- An externally observable event driving the distributor: a capture
submit, one fan-out loop iteration, one collection delivery, or one
playout tick. -/
inductive Op where
  | submit (frame : Nat) (timestamp : Nat) (prompt : String)
  | serve (ready : Option Nat)
  | ingest (msg : InMsg)
  | tick
deriving Repr, DecidableEq

/-- State transition for one event. -/
def applyOp (s : DState) : Op → DState
  | .submit frame timestamp prompt => add_frame_for_distribution s frame timestamp prompt
  | .serve ready => (handle_distribute_iteration s ready).1
  | .ingest msg => check_inverter_output s msg
  | .tick => (update_display_frame s).1

/-- Run a sequence of events. -/
def runOps (s : DState) (ops : List Op) : DState :=
  ops.foldl applyOp s

/-- Run a sequence of events, collecting every message sent on the
distribution socket. -/
def runOpsOut (s : DState) : List Op → DState × List SentMsg
  | [] => (s, [])
  | op :: ops =>
    let step : DState × List SentMsg :=
      match op with
      | .serve ready =>
        let r := handle_distribute_iteration s ready
        (r.1, r.2.toList)
      | _ => (applyOp s op, [])
    let rest := runOpsOut step.1 ops
    (rest.1, step.2 ++ rest.2)

/-!
Worker loop (`worker.py`).  The pluggable transform `self(batch, prompt)`
is a parameter; wall-clock reads around it are modelled by an abstract
clock that the state carries: each batch records
`(start_time, end_time) = (clock, clock + 1)` and advances the clock by 2,
so intervals of distinct batches are distinct and disjoint.
-/

/-- A `(index, prompt, payload)` message received by the worker from the
distribution channel. -/
structure WMsg where
  frame_index : Int
  prompt : String
  frame_bytes : Nat
deriving Repr, DecidableEq

/-- A five-part result message pushed by the worker on the collection
channel. -/
structure WOut where
  frame_index : Int
  process_id : Nat
  start_time : Nat
  end_time : Nat
  payload : Nat
deriving Repr, DecidableEq

/-- The worker loop state: the pending batch accumulators of
`Worker.start` plus the abstract clock. -/
structure WorkerState where
  frame_index_batch : List Int
  frame_bytes_batch : List Nat
  clock : Nat
deriving Repr, DecidableEq

/-- One receive handled by the `Worker.start` loop: append the message to
the pending batch; if the batch is still short of `batch_size`, emit
nothing; otherwise invoke the transform once on the batched payloads with
the prompt of the message just received (the last frame of the batch) and
push one result per batch member, all sharing the single
`(start_time, end_time)` pair, then clear the batch. -/
def worker_receive (batch_size : Nat) (process_id : Nat)
    (transform : List Nat → String → List Nat)
    (s : WorkerState) (msg : WMsg) : WorkerState × List WOut :=
  let frame_index_batch := s.frame_index_batch ++ [msg.frame_index]
  let frame_bytes_batch := s.frame_bytes_batch ++ [msg.frame_bytes]
  if frame_index_batch.length < batch_size then
    ({ s with frame_index_batch := frame_index_batch
              frame_bytes_batch := frame_bytes_batch }, [])
  else
    let start_time := s.clock
    let processed_frame_batch := transform frame_bytes_batch msg.prompt
    let end_time := s.clock + 1
    let outs := (List.range batch_size).map (fun i =>
      { frame_index := frame_index_batch.getD i 0
        process_id := process_id
        start_time := start_time
        end_time := end_time
        payload := processed_frame_batch.getD i 0 : WOut })
    ({ frame_index_batch := [], frame_bytes_batch := [], clock := s.clock + 2 }, outs)

/-- Run the worker loop over a sequence of received messages, collecting
every result pushed on the collection channel. -/
def worker_run (batch_size : Nat) (process_id : Nat)
    (transform : List Nat → String → List Nat)
    (s : WorkerState) : List WMsg → WorkerState × List WOut
  | [] => (s, [])
  | msg :: msgs =>
    let step := worker_receive batch_size process_id transform s msg
    let rest := worker_run batch_size process_id transform step.1 msgs
    (rest.1, step.2 ++ rest.2)

/-- The batch of `batch_size` result messages pushed for one full batch:
original indices in input order, paired positionally with the transform
outputs, all stamped with the single interval `(c, c + 1)`. -/
def batchOut (batch_size : Nat) (process_id : Nat) (c : Nat)
    (idxs : List Int) (processed : List Nat) : List WOut :=
  (List.range batch_size).map (fun i =>
    { frame_index := idxs.getD i 0
      process_id := process_id
      start_time := c
      end_time := c + 1
      payload := processed.getD i 0 : WOut })

/-! Projection lemmas: the logging helpers touch only `frame_timings`,
and `cleanup_old_frames` touches only `received_frames`. -/

theorem log_complete_received (s : DState) (i : Int) (b e : Nat) (t : String) (p : Nat) :
    (log_frame_complete_timing s i b e t p).received_frames = s.received_frames := by
  unfold log_frame_complete_timing; split <;> rfl

theorem log_complete_current (s : DState) (i : Int) (b e : Nat) (t : String) (p : Nat) :
    (log_frame_complete_timing s i b e t p).current_display_frame = s.current_display_frame := by
  unfold log_frame_complete_timing; split <;> rfl

theorem log_complete_latest (s : DState) (i : Int) (b e : Nat) (t : String) (p : Nat) :
    (log_frame_complete_timing s i b e t p).latest_received_frame = s.latest_received_frame := by
  unfold log_frame_complete_timing; split <;> rfl

theorem log_complete_bufsize (s : DState) (i : Int) (b e : Nat) (t : String) (p : Nat) :
    (log_frame_complete_timing s i b e t p).frame_buffer_size = s.frame_buffer_size := by
  unfold log_frame_complete_timing; split <;> rfl

theorem log_complete_last_sent (s : DState) (i : Int) (b e : Nat) (t : String) (p : Nat) :
    (log_frame_complete_timing s i b e t p).last_frame_sent = s.last_frame_sent := by
  unfold log_frame_complete_timing; split <;> rfl

theorem log_timing_counter (s : DState) (i : Int) (ts : Nat) (t : String) :
    (log_frame_timing s i ts t).frame_index_counter = s.frame_index_counter := by
  unfold log_frame_timing; split <;> rfl

theorem log_timing_queue (s : DState) (i : Int) (ts : Nat) (t : String) :
    (log_frame_timing s i ts t).frame_queue = s.frame_queue := by
  unfold log_frame_timing; split <;> rfl

theorem log_timing_last_sent (s : DState) (i : Int) (ts : Nat) (t : String) :
    (log_frame_timing s i ts t).last_frame_sent = s.last_frame_sent := by
  unfold log_frame_timing; split <;> rfl

theorem cleanup_current (s : DState) :
    (cleanup_old_frames s).current_display_frame = s.current_display_frame := by
  simp only [cleanup_old_frames]; split <;> rfl

theorem cleanup_latest (s : DState) :
    (cleanup_old_frames s).latest_received_frame = s.latest_received_frame := by
  simp only [cleanup_old_frames]; split <;> rfl

theorem cleanup_last_sent (s : DState) :
    (cleanup_old_frames s).last_frame_sent = s.last_frame_sent := by
  simp only [cleanup_old_frames]; split <;> rfl

/-- Every entry surviving `cleanup_old_frames` was already present and its
index is at least the display cursor. -/
theorem cleanup_mem (s : DState) :
    ∀ p ∈ (cleanup_old_frames s).received_frames,
      p ∈ s.received_frames ∧ s.current_display_frame ≤ p.1 := by
  intro p hp
  simp only [cleanup_old_frames] at hp
  have hmem : p ∈ s.received_frames.filter
      (fun p => !decide (p.1 < s.current_display_frame)) := by
    split at hp
    · exact List.drop_subset _ _ hp
    · exact hp
  have h := List.mem_filter.mp hmem
  refine ⟨h.1, ?_⟩
  have := h.2
  simp only [Bool.not_eq_true', decide_eq_false_iff_not, not_lt] at this
  exact this

/-! Association-list (dict) lemmas. -/

theorem mem_keys_of_bufLookup {k : Int} {e : Entry} :
    ∀ {b : Buffer}, bufLookup k b = some e → k ∈ bufKeys b := by
  intro b
  induction b with
  | nil => intro h; simp [bufLookup] at h
  | cons p rest ih =>
    intro h
    unfold bufLookup at h
    by_cases hk : k = p.1
    · simp [bufKeys, hk]
    · rw [if_neg hk] at h
      simp [bufKeys]
      right
      have := ih h
      simpa [bufKeys] using this

theorem bufLookup_of_mem_keys {k : Int} :
    ∀ {b : Buffer}, k ∈ bufKeys b → ∃ e, bufLookup k b = some e := by
  intro b
  induction b with
  | nil => intro h; simp [bufKeys] at h
  | cons p rest ih =>
    intro h
    by_cases hk : k = p.1
    · exact ⟨p.2, by simp [bufLookup, hk]⟩
    · have : k ∈ bufKeys rest := by
        simp [bufKeys] at h
        rcases h with h | h
        · exact absurd h hk
        · simpa [bufKeys] using h
      obtain ⟨e, he⟩ := ih this
      exact ⟨e, by simp [bufLookup, hk, he]⟩

theorem bufLookup_none_of_not_mem {k : Int} {b : Buffer}
    (h : k ∉ bufKeys b) : bufLookup k b = none := by
  cases hlook : bufLookup k b with
  | none => rfl
  | some e => exact absurd (mem_keys_of_bufLookup hlook) h

theorem bufInsert_length (k : Int) (e : Entry) :
    ∀ b : Buffer, (bufInsert k e b).length ≤ b.length + 1 := by
  intro b
  induction b with
  | nil => simp [bufInsert]
  | cons p rest ih =>
    unfold bufInsert
    split
    · simp
    · split
      · simp
      · simpa using Nat.succ_le_succ ih

theorem mem_keys_bufInsert_self (k : Int) (e : Entry) :
    ∀ b : Buffer, k ∈ bufKeys (bufInsert k e b) := by
  intro b
  induction b with
  | nil => simp [bufInsert, bufKeys]
  | cons p rest ih =>
    unfold bufInsert
    split
    · simp [bufKeys]
    · split
      · simp [bufKeys]
      · simp only [bufKeys, List.map_cons, List.mem_cons]
        right
        simpa [bufKeys] using ih

theorem mem_keys_bufInsert_of_mem (k : Int) (e : Entry) {a : Int} :
    ∀ {b : Buffer}, a ∈ bufKeys b → a ∈ bufKeys (bufInsert k e b) := by
  intro b
  induction b with
  | nil => intro h; simp [bufKeys] at h
  | cons p rest ih =>
    intro h
    unfold bufInsert
    split
    · simp only [bufKeys, List.map_cons, List.mem_cons]
      right
      simpa [bufKeys] using h
    · rcases (by simpa [bufKeys] using h : a = p.1 ∨ a ∈ bufKeys rest) with h' | h'
      · split
        · rename_i hlt heq
          simp [bufKeys, h', heq.symm]
        · simp [bufKeys, h']
      · split
        · simp only [bufKeys, List.map_cons, List.mem_cons]
          right
          simpa [bufKeys] using h'
        · simp only [bufKeys, List.map_cons, List.mem_cons]
          right
          simpa [bufKeys] using ih h'

theorem mem_keys_of_bufInsert {k : Int} {e : Entry} {a : Int} :
    ∀ {b : Buffer}, a ∈ bufKeys (bufInsert k e b) → a = k ∨ a ∈ bufKeys b := by
  intro b
  induction b with
  | nil => intro h; simpa [bufInsert, bufKeys] using h
  | cons p rest ih =>
    intro h
    unfold bufInsert at h
    split at h
    · rcases (by simpa [bufKeys] using h : a = k ∨ a = p.1 ∨ a ∈ bufKeys rest) with h' | h' | h'
      · exact Or.inl h'
      · exact Or.inr (by simp [bufKeys, h'])
      · exact Or.inr (by simp only [bufKeys, List.map_cons, List.mem_cons]; right; simpa [bufKeys] using h')
    · split at h
      · rcases (by simpa [bufKeys] using h : a = k ∨ a ∈ bufKeys rest) with h' | h'
        · exact Or.inl h'
        · exact Or.inr (by simp only [bufKeys, List.map_cons, List.mem_cons]; right; simpa [bufKeys] using h')
      · rcases (by simpa [bufKeys] using h : a = p.1 ∨ a ∈ bufKeys (bufInsert k e rest)) with h' | h'
        · exact Or.inr (by simp [bufKeys, h'])
        · rcases ih h' with h'' | h''
          · exact Or.inl h''
          · exact Or.inr (by simp only [bufKeys, List.map_cons, List.mem_cons]; right; simpa [bufKeys] using h'')

theorem pairwise_keys_bufInsert (k : Int) (e : Entry) :
    ∀ {b : Buffer}, List.Pairwise (· < ·) (bufKeys b) →
      List.Pairwise (· < ·) (bufKeys (bufInsert k e b)) := by
  intro b
  induction b with
  | nil => intro _; simp [bufInsert, bufKeys]
  | cons p rest ih =>
    intro h
    have hcons : List.Pairwise (· < ·) (p.1 :: bufKeys rest) := by
      simpa [bufKeys] using h
    obtain ⟨hhead, htail⟩ := List.pairwise_cons.mp hcons
    unfold bufInsert
    split
    · rename_i hlt
      simp only [bufKeys, List.map_cons]
      refine List.Pairwise.cons ?_ (by simpa [bufKeys] using h)
      intro a ha
      rcases (by simpa [bufKeys] using ha : a = p.1 ∨ a ∈ bufKeys rest) with h' | h'
      · exact h' ▸ hlt
      · exact lt_trans hlt (hhead a h')
    · split
      · rename_i hnlt heq
        simp only [bufKeys, List.map_cons]
        refine List.Pairwise.cons ?_ htail
        intro a ha
        exact heq ▸ hhead a (by simpa [bufKeys] using ha)
      · rename_i hnlt hne
        have hgt : p.1 < k := by
          rcases lt_trichotomy k p.1 with h' | h' | h'
          · exact absurd h' hnlt
          · exact absurd h' hne
          · exact h'
        simp only [bufKeys, List.map_cons]
        refine List.Pairwise.cons ?_ (ih htail)
        intro a ha
        rcases mem_keys_of_bufInsert (by simpa [bufKeys] using ha) with h' | h'
        · exact h' ▸ hgt
        · exact hhead a h'

theorem bufKeys_filter_fst (q : Int → Bool) :
    ∀ b : Buffer, bufKeys (b.filter (fun p => q p.1)) = (bufKeys b).filter q := by
  intro b
  induction b with
  | nil => rfl
  | cons p rest ih =>
    by_cases h : q p.1
    · simp only [List.filter_cons, h, if_true, bufKeys, List.map_cons]
      exact congrArg (p.1 :: ·) ih
    · simp only [List.filter_cons, h, Bool.false_eq_true, if_false, bufKeys, List.map_cons]
      exact ih

/-! Ingest-step helpers. -/

theorem ingest_current (s : DState) (msg : InMsg) :
    (check_inverter_output s msg).current_display_frame = s.current_display_frame := by
  simp only [check_inverter_output]
  split
  · rfl
  · rw [cleanup_current]
    exact log_complete_current s _ _ _ _ _

theorem ingest_latest (s : DState) (msg : InMsg) :
    s.latest_received_frame ≤ (check_inverter_output s msg).latest_received_frame := by
  simp only [check_inverter_output]
  split
  · exact le_refl _
  · rw [cleanup_latest]
    have : (log_frame_complete_timing s msg.frame_index msg.start_time msg.end_time
        "frame_inverted_received" msg.process_id).latest_received_frame =
        s.latest_received_frame := log_complete_latest s _ _ _ _ _
    rw [this]
    exact le_max_left s.latest_received_frame msg.frame_index

/-- After an admitted ingest every buffered index is at least the display
cursor: `cleanup_old_frames` runs last and purges everything below it. -/
theorem ingest_keys_ge (s : DState) (msg : InMsg)
    (h : msg.frame_index ≤ s.frame_index_counter) :
    ∀ k ∈ bufKeys (check_inverter_output s msg).received_frames,
      (check_inverter_output s msg).current_display_frame ≤ k := by
  intro k hk
  rw [ingest_current]
  simp only [check_inverter_output] at hk
  rw [if_neg (not_lt.mpr h)] at hk
  simp only [bufKeys, List.mem_map] at hk
  obtain ⟨p, hp, rfl⟩ := hk
  have := (cleanup_mem _ p hp).2
  simp only [log_complete_current] at this
  exact this

/-- C6: a message on the collection channel whose frame index is strictly
greater than the capture counter is dropped by the ingest step: the
distributor state is left entirely unchanged — no reorder-buffer insert,
no `latest_received_frame` update, and no trace event. -/
theorem stale_ingest_leaves_state_unchanged (s : DState) (msg : InMsg)
    (h : s.frame_index_counter < msg.frame_index) :
    check_inverter_output s msg = s := by
  simp only [check_inverter_output]
  rw [if_pos h]

theorem stale_ingest_leaves_state_unchanged_witness :
    initState.frame_index_counter < (7 : Int) ∧
      check_inverter_output initState ⟨7, 3, 0, 1, 42⟩ = initState :=
  ⟨by decide, stale_ingest_leaves_state_unchanged initState ⟨7, 3, 0, 1, 42⟩ (by decide)⟩

/-- C1 (amended): `latest_received_frame` is monotonically non-decreasing
under both operations, and an ingest never changes
`current_display_frame`; a playout tick, however, decreases
`current_display_frame` whenever the delayed target
`latest_received_frame - frame_delay` is active but smaller than the
cursor (warm-up overshoot) — it never decreases it otherwise. -/
theorem counters_monotone_amended :
    (∀ (s : DState) (msg : InMsg),
      s.latest_received_frame ≤ (check_inverter_output s msg).latest_received_frame ∧
      (check_inverter_output s msg).current_display_frame = s.current_display_frame) ∧
    (∀ s : DState,
      (update_display_frame s).1.latest_received_frame = s.latest_received_frame ∧
      (s.current_display_frame ≤ (update_display_frame s).1.current_display_frame ∨
        (s.frame_delay ≤ s.latest_received_frame ∧
          s.latest_received_frame - s.frame_delay < s.current_display_frame))) := by
  constructor
  · intro s msg
    exact ⟨ingest_latest s msg, ingest_current s msg⟩
  · intro s
    constructor
    · simp only [update_display_frame]
      split
      · split <;> rfl
      · split
        · split <;> rfl
        · rfl
    · simp only [update_display_frame]
      split
      · rename_i hd
        rcases le_or_lt s.current_display_frame (s.latest_received_frame - s.frame_delay) with h | h
        · left
          split <;> exact h
        · right
          exact ⟨hd, h⟩
      · split
        · split
          · rename_i hlt
            left
            exact le_of_lt hlt
          · left
            exact le_refl _
        · left
          exact le_refl _

/-- C1 (counterexample): with `frame_delay = 5`, six capture submits, the
ingest of processed frame 4 and a tick put the display cursor at 4
(warm-up); ingesting frame 5 and ticking again moves the cursor back to
`5 - 5 = 0`: `current_display_frame` is not monotonically non-decreasing. -/
theorem tick_can_decrease_display_cursor :
    (runOps initState
      [.submit 0 0 "", .submit 1 1 "", .submit 2 2 "", .submit 3 3 "",
       .submit 4 4 "", .submit 5 5 "",
       .ingest ⟨4, 1, 0, 0, 104⟩, .tick]).current_display_frame = 4 ∧
    (runOps initState
      [.submit 0 0 "", .submit 1 1 "", .submit 2 2 "", .submit 3 3 "",
       .submit 4 4 "", .submit 5 5 "",
       .ingest ⟨4, 1, 0, 0, 104⟩, .tick,
       .ingest ⟨5, 1, 0, 0, 105⟩, .tick]).current_display_frame = 0 := by
  constructor <;> rfl

/-! `min(available_frames, key=abs distance)` as a left fold keeping the
first minimizer.  `foldl_closest_strict` also records that a result drawn
from the list is a strict improvement over the initial candidate. -/

theorem foldl_closest_strict (t : Int) :
    ∀ (l : List Int) (init : Int),
      (l.foldl (fun best x =>
        if (x - t).natAbs < (best - t).natAbs then x else best) init) = init ∨
      ((l.foldl (fun best x =>
        if (x - t).natAbs < (best - t).natAbs then x else best) init) ∈ l ∧
        ((l.foldl (fun best x =>
          if (x - t).natAbs < (best - t).natAbs then x else best) init) - t).natAbs <
          (init - t).natAbs) := by
  intro l
  induction l with
  | nil => intro init; left; rfl
  | cons x xs ih =>
    intro init
    simp only [List.foldl_cons]
    by_cases hx : (x - t).natAbs < (init - t).natAbs
    · rw [if_pos hx]
      rcases ih x with h | ⟨hmem, hlt⟩
      · right
        exact ⟨by rw [h]; exact List.mem_cons_self x xs, by rw [h]; exact hx⟩
      · right
        exact ⟨List.mem_cons_of_mem x hmem, lt_trans hlt hx⟩
    · rw [if_neg hx]
      rcases ih init with h | ⟨hmem, hlt⟩
      · left; exact h
      · right
        exact ⟨List.mem_cons_of_mem x hmem, hlt⟩

theorem foldl_closest_mem (t : Int) (l : List Int) (init : Int) :
    (l.foldl (fun best x =>
      if (x - t).natAbs < (best - t).natAbs then x else best) init) = init ∨
    (l.foldl (fun best x =>
      if (x - t).natAbs < (best - t).natAbs then x else best) init) ∈ l := by
  rcases foldl_closest_strict t l init with h | ⟨hmem, _⟩
  · left; exact h
  · right; exact hmem

theorem foldl_closest_min (t : Int) :
    ∀ (l : List Int) (init : Int),
      ((l.foldl (fun best x =>
        if (x - t).natAbs < (best - t).natAbs then x else best) init) - t).natAbs ≤
        (init - t).natAbs ∧
      ∀ j ∈ l, ((l.foldl (fun best x =>
        if (x - t).natAbs < (best - t).natAbs then x else best) init) - t).natAbs ≤
        (j - t).natAbs := by
  intro l
  induction l with
  | nil => intro init; exact ⟨le_refl _, by intro j hj; simp at hj⟩
  | cons x xs ih =>
    intro init
    simp only [List.foldl_cons]
    by_cases hx : (x - t).natAbs < (init - t).natAbs
    · rw [if_pos hx]
      obtain ⟨h1, h2⟩ := ih x
      refine ⟨le_trans h1 (le_of_lt hx), ?_⟩
      intro j hj
      rcases List.mem_cons.mp hj with rfl | hj'
      · exact h1
      · exact h2 j hj'
    · rw [if_neg hx]
      obtain ⟨h1, h2⟩ := ih init
      refine ⟨h1, ?_⟩
      intro j hj
      rcases List.mem_cons.mp hj with rfl | hj'
      · exact le_trans h1 (not_lt.mp hx)
      · exact h2 j hj'

/-- On a strictly ascending candidate list the fold keeps the first — and
hence smallest — minimizer: any tying candidate is at least the result. -/
theorem foldl_closest_tie (t : Int) :
    ∀ (l : List Int) (init : Int),
      (∀ a ∈ l, init < a) → List.Pairwise (· < ·) l →
      ∀ j, (j = init ∨ j ∈ l) →
        ((j - t).natAbs = ((l.foldl (fun best x =>
          if (x - t).natAbs < (best - t).natAbs then x else best) init) - t).natAbs) →
        (l.foldl (fun best x =>
          if (x - t).natAbs < (best - t).natAbs then x else best) init) ≤ j := by
  intro l
  induction l with
  | nil =>
    intro init _ _ j hj _
    rcases hj with rfl | hj
    · exact le_refl _
    · simp at hj
  | cons x xs ih =>
    intro init hinit hpair j hj htie
    obtain ⟨hx_lt, hpair'⟩ := List.pairwise_cons.mp hpair
    have hinit_x : init < x := hinit x (List.mem_cons_self x xs)
    simp only [List.foldl_cons] at htie ⊢
    by_cases hx : (x - t).natAbs < (init - t).natAbs
    · rw [if_pos hx] at htie ⊢
      rcases hj with rfl | hj'
      · exfalso
        rcases foldl_closest_strict t xs x with h | ⟨_, hlt⟩
        · rw [h] at htie
          exact Nat.ne_of_lt hx htie.symm
        · rw [← htie] at hlt
          exact absurd (lt_trans hlt hx) (lt_irrefl _)
      · exact ih x hx_lt hpair' j (List.mem_cons.mp hj') htie
    · rw [if_neg hx] at htie ⊢
      have hinit_xs : ∀ a ∈ xs, init < a :=
        fun a ha => hinit a (List.mem_cons_of_mem x ha)
      rcases hj with rfl | hj'
      · exact ih _ hinit_xs hpair' _ (Or.inl rfl) htie
      · rcases List.mem_cons.mp hj' with rfl | hj''
        · rcases foldl_closest_strict t xs init with h | ⟨_, hlt⟩
          · rw [h]
            exact le_of_lt hinit_x
          · exfalso
            rw [← htie] at hlt
            exact absurd (lt_of_lt_of_le hlt (not_lt.mp hx)) (lt_irrefl _)
        · exact ih _ hinit_xs hpair' _ (Or.inr hj'') htie

/-- C2 (amended): after every ingest step that admits its frame
(`index ≤ frame_index_counter`), the reorder buffer contains no entry
with index below `current_display_frame`; after a playout advance (or a
dropped stale ingest) entries below the cursor may linger until the next
admitted ingest purges them. -/
theorem buffer_purged_after_admitted_ingest (s : DState) (msg : InMsg)
    (h : msg.frame_index ≤ s.frame_index_counter) :
    ∀ k ∈ bufKeys (check_inverter_output s msg).received_frames,
      (check_inverter_output s msg).current_display_frame ≤ k :=
  ingest_keys_ge s msg h

theorem buffer_purged_after_admitted_ingest_witness :
    (0 : Int) ≤ initState.frame_index_counter ∧
      (check_inverter_output initState ⟨0, 1, 0, 0, 100⟩).current_display_frame ≤ 0 :=
  ⟨by decide,
    buffer_purged_after_admitted_ingest initState ⟨0, 1, 0, 0, 100⟩ (by decide) 0 (by decide)⟩

/-- C2 (counterexample): seven capture submits, ingest of frames 0 and 6
(`frame_delay = 5`), then one tick: the tick advances (returns `true`)
and sets the cursor to 1, yet the entry at index 0 is still in the
reorder buffer — the buffer does hold an entry below
`current_display_frame` right after a playout advance. -/
theorem stale_entry_after_advance :
    (update_display_frame (runOps initState
      [.submit 0 0 "", .submit 1 1 "", .submit 2 2 "", .submit 3 3 "",
       .submit 4 4 "", .submit 5 5 "", .submit 6 6 "",
       .ingest ⟨0, 1, 0, 0, 100⟩, .ingest ⟨6, 1, 0, 0, 106⟩])).2 = true ∧
    (update_display_frame (runOps initState
      [.submit 0 0 "", .submit 1 1 "", .submit 2 2 "", .submit 3 3 "",
       .submit 4 4 "", .submit 5 5 "", .submit 6 6 "",
       .ingest ⟨0, 1, 0, 0, 100⟩, .ingest ⟨6, 1, 0, 0, 106⟩])).1.current_display_frame = 1 ∧
    (0 : Int) ∈ bufKeys (update_display_frame (runOps initState
      [.submit 0 0 "", .submit 1 1 "", .submit 2 2 "", .submit 3 3 "",
       .submit 4 4 "", .submit 5 5 "", .submit 6 6 "",
       .ingest ⟨0, 1, 0, 0, 100⟩, .ingest ⟨6, 1, 0, 0, 106⟩])).1.received_frames := by
  exact ⟨rfl, rfl, by decide⟩

/-- C3 (amended): once an admitted ingest has run with the display cursor
beyond index `i`, frame `i` is no longer observable: it is not in the
reorder buffer, and `get_frame_to_display` returns either nothing or the
payload of an entry whose index is at least the cursor.  (Between a
playout advance and the next admitted ingest, the closest-frame fallback
can still return a frame the cursor already passed.) -/
theorem display_after_ingest_above_cursor (s : DState) (msg : InMsg)
    (h : msg.frame_index ≤ s.frame_index_counter) :
    (∀ i, i < (check_inverter_output s msg).current_display_frame →
      bufLookup i (check_inverter_output s msg).received_frames = none) ∧
    (get_frame_to_display (check_inverter_output s msg) = none ∨
      ∃ k e, (check_inverter_output s msg).current_display_frame ≤ k ∧
        bufLookup k (check_inverter_output s msg).received_frames = some e ∧
        get_frame_to_display (check_inverter_output s msg) = some e.frame_data) := by
  have hge := ingest_keys_ge s msg h
  constructor
  · intro i hi
    apply bufLookup_none_of_not_mem
    intro hmem
    exact absurd hi (not_lt.mpr (hge i hmem))
  · set t := check_inverter_output s msg with ht
    cases hlook : bufLookup t.current_display_frame t.received_frames with
    | some e =>
      right
      exact ⟨t.current_display_frame, e, le_refl _, hlook,
        by simp [get_frame_to_display, hlook]⟩
    | none =>
      cases hb : t.received_frames with
      | nil =>
        left
        simp [get_frame_to_display, hlook, hb, bufLookup]
      | cons p rest =>
        obtain ⟨k₀, e₀⟩ := p
        right
        have hmem : ((bufKeys rest).foldl
            (fun best x => if (x - t.current_display_frame).natAbs <
              (best - t.current_display_frame).natAbs then x else best) k₀) ∈
            bufKeys t.received_frames := by
          rcases foldl_closest_mem t.current_display_frame (bufKeys rest) k₀ with h' | h'
          · rw [hb, h']
            simp [bufKeys]
          · rw [hb]
            simp only [bufKeys, List.map_cons, List.mem_cons]
            right
            exact h'
        obtain ⟨e, he⟩ := bufLookup_of_mem_keys hmem
        rw [hb] at hlook he
        refine ⟨_, e, hge _ hmem, he, ?_⟩
        simp [get_frame_to_display, hlook, hb, he]

theorem display_after_ingest_above_cursor_witness :
    (0 : Int) ≤ initState.frame_index_counter ∧
      bufLookup (-1) (check_inverter_output initState ⟨0, 1, 0, 0, 100⟩).received_frames = none :=
  ⟨by decide,
    (display_after_ingest_above_cursor initState ⟨0, 1, 0, 0, 100⟩ (by decide)).1 (-1) (by decide)⟩

/-- C3 (counterexample): frame 0 (payload 100) is inserted, a later tick
advances the cursor to 1 (strictly past 0), yet the very next
`get_frame_to_display` returns payload 100 — frame 0's payload — via the
closest-frame fallback, because the tick does not purge the buffer. -/
theorem closest_fallback_returns_passed_frame :
    bufLookup 0 (runOps initState
      [.submit 0 0 "", .submit 1 1 "", .submit 2 2 "", .submit 3 3 "",
       .submit 4 4 "", .submit 5 5 "", .submit 6 6 "",
       .ingest ⟨0, 1, 0, 0, 100⟩, .ingest ⟨6, 1, 0, 0, 106⟩]).received_frames
      = some ⟨100, 1, 0, 0⟩ ∧
    (update_display_frame (runOps initState
      [.submit 0 0 "", .submit 1 1 "", .submit 2 2 "", .submit 3 3 "",
       .submit 4 4 "", .submit 5 5 "", .submit 6 6 "",
       .ingest ⟨0, 1, 0, 0, 100⟩, .ingest ⟨6, 1, 0, 0, 106⟩])).2 = true ∧
    (update_display_frame (runOps initState
      [.submit 0 0 "", .submit 1 1 "", .submit 2 2 "", .submit 3 3 "",
       .submit 4 4 "", .submit 5 5 "", .submit 6 6 "",
       .ingest ⟨0, 1, 0, 0, 100⟩, .ingest ⟨6, 1, 0, 0, 106⟩])).1.current_display_frame = 1 ∧
    get_frame_to_display (update_display_frame (runOps initState
      [.submit 0 0 "", .submit 1 1 "", .submit 2 2 "", .submit 3 3 "",
       .submit 4 4 "", .submit 5 5 "", .submit 6 6 "",
       .ingest ⟨0, 1, 0, 0, 100⟩, .ingest ⟨6, 1, 0, 0, 106⟩])).1 = some 100 := by
  exact ⟨rfl, rfl, rfl, rfl⟩

/-- C5: `get_frame_to_display` returns the payload at the cursor index
when buffered; otherwise, for a non-empty buffer, the payload at the
buffered index minimizing the absolute distance to the cursor, ties
broken toward the smaller index; otherwise nothing. -/
theorem get_frame_to_display_characterization (s : DState)
    (hsorted : List.Pairwise (· < ·) (bufKeys s.received_frames)) :
    (s.received_frames = [] → get_frame_to_display s = none) ∧
    (∀ e, bufLookup s.current_display_frame s.received_frames = some e →
      get_frame_to_display s = some e.frame_data) ∧
    (bufLookup s.current_display_frame s.received_frames = none →
      s.received_frames ≠ [] →
      ∃ k e, k ∈ bufKeys s.received_frames ∧
        bufLookup k s.received_frames = some e ∧
        get_frame_to_display s = some e.frame_data ∧
        (∀ j ∈ bufKeys s.received_frames,
          (k - s.current_display_frame).natAbs ≤ (j - s.current_display_frame).natAbs) ∧
        (∀ j ∈ bufKeys s.received_frames,
          (j - s.current_display_frame).natAbs = (k - s.current_display_frame).natAbs →
            k ≤ j)) := by
  refine ⟨?_, ?_, ?_⟩
  · intro hb
    simp [get_frame_to_display, hb, bufLookup]
  · intro e hlook
    simp [get_frame_to_display, hlook]
  · intro hlook hne
    cases hb : s.received_frames with
    | nil => exact absurd hb hne
    | cons p rest =>
      obtain ⟨k₀, e₀⟩ := p
      rw [hb] at hlook
      have hsorted' : List.Pairwise (· < ·) (k₀ :: bufKeys rest) := by
        rw [hb] at hsorted
        simpa [bufKeys] using hsorted
      obtain ⟨hk₀_lt, hpair'⟩ := List.pairwise_cons.mp hsorted'
      have hmem : ((bufKeys rest).foldl
          (fun best x => if (x - s.current_display_frame).natAbs <
            (best - s.current_display_frame).natAbs then x else best) k₀) ∈
          bufKeys ((k₀, e₀) :: rest) := by
        rcases foldl_closest_mem s.current_display_frame (bufKeys rest) k₀ with h' | h' <;>
          simp only [bufKeys, List.map_cons, List.mem_cons]
        · left; exact h'
        · right; exact h'
      obtain ⟨e, he⟩ := bufLookup_of_mem_keys hmem
      refine ⟨_, e, hmem, he, ?_, ?_, ?_⟩
      · simp [get_frame_to_display, hlook, hb, he]
      · intro j hj
        obtain ⟨h1, h2⟩ := foldl_closest_min s.current_display_frame (bufKeys rest) k₀
        rcases (by simpa [bufKeys] using hj : j = k₀ ∨ j ∈ bufKeys rest) with rfl | hj'
        · exact h1
        · exact h2 j hj'
      · intro j hj htie
        refine foldl_closest_tie s.current_display_frame (bufKeys rest) k₀ hk₀_lt hpair' j ?_ htie
        rcases (by simpa [bufKeys] using hj : j = k₀ ∨ j ∈ bufKeys rest) with rfl | hj'
        · exact Or.inl rfl
        · exact Or.inr hj'

theorem get_frame_to_display_characterization_witness :
    List.Pairwise (· < ·)
      (bufKeys [((7 : Int), (⟨107, 1, 0, 0⟩ : Entry)), (8, ⟨108, 1, 0, 0⟩),
        (9, ⟨109, 1, 0, 0⟩), (10, ⟨110, 1, 0, 0⟩)]) ∧
    get_frame_to_display { initState with
      received_frames := [(7, ⟨107, 1, 0, 0⟩), (8, ⟨108, 1, 0, 0⟩),
        (9, ⟨109, 1, 0, 0⟩), (10, ⟨110, 1, 0, 0⟩)],
      current_display_frame := 5 } = some 107 := by
  constructor
  · decide
  · obtain ⟨k, e, hk, hlook, hget, hmin, htie⟩ :=
      (get_frame_to_display_characterization { initState with
        received_frames := [(7, ⟨107, 1, 0, 0⟩), (8, ⟨108, 1, 0, 0⟩),
          (9, ⟨109, 1, 0, 0⟩), (10, ⟨110, 1, 0, 0⟩)],
        current_display_frame := 5 } (by decide)).2.2 (by decide) (by decide)
    obtain ⟨ed, ep, es, ee⟩ := e
    have h7 := hmin 7 (by decide)
    have hmem : k = 7 ∨ k = 8 ∨ k = 9 ∨ k = 10 := by
      simpa [bufKeys] using hk
    rcases hmem with rfl | rfl | rfl | rfl
    · obtain ⟨rfl, rfl, rfl, rfl⟩ : 107 = ed ∧ 1 = ep ∧ 0 = es ∧ 0 = ee := by
        simpa [bufLookup] using hlook
      exact hget
    · exact absurd h7 (by decide)
    · exact absurd h7 (by decide)
    · exact absurd h7 (by decide)

/-! Fan-out watermark lemmas: `last_frame_sent` never decreases, and a
sent message raises it to exactly the sent index. -/

theorem submit_last_sent (s : DState) (f ts : Nat) (p : String) :
    (add_frame_for_distribution s f ts p).last_frame_sent = s.last_frame_sent := by
  simp only [add_frame_for_distribution]
  split
  · rw [log_timing_last_sent]
  · rfl

theorem ingest_last_sent (s : DState) (msg : InMsg) :
    (check_inverter_output s msg).last_frame_sent = s.last_frame_sent := by
  simp only [check_inverter_output]
  split
  · rfl
  · rw [cleanup_last_sent]
    exact log_complete_last_sent s _ _ _ _ _

theorem tick_last_sent (s : DState) :
    (update_display_frame s).1.last_frame_sent = s.last_frame_sent := by
  simp only [update_display_frame]
  split
  · split <;> rfl
  · split
    · split <;> rfl
    · rfl

theorem serve_last_mono (s : DState) (r : Option Nat) :
    s.last_frame_sent ≤ (handle_distribute_iteration s r).1.last_frame_sent := by
  cases hq : s.frame_queue with
  | nil =>
    cases r with
    | none => simp [handle_distribute_iteration, hq]
    | some cid =>
      cases hc : s.current_frame_data with
      | none => simp [handle_distribute_iteration, hq, hc]
      | some cfd =>
        by_cases hlt : s.last_frame_sent < cfd.frame_index
        · simp only [handle_distribute_iteration, hq, hc, if_pos hlt]
          exact le_of_lt hlt
        · simp [handle_distribute_iteration, hq, hc, hlt]
  | cons fd rest =>
    cases r with
    | none => simp [handle_distribute_iteration, hq]
    | some cid =>
      by_cases hlt : s.last_frame_sent < fd.frame_index
      · simp only [handle_distribute_iteration, hq, if_pos hlt]
        exact le_of_lt hlt
      · simp [handle_distribute_iteration, hq, hlt]

theorem serve_sent_spec (s : DState) (r : Option Nat) (m : SentMsg)
    (h : (handle_distribute_iteration s r).2 = some m) :
    s.last_frame_sent < m.frame_index ∧
      (handle_distribute_iteration s r).1.last_frame_sent = m.frame_index := by
  cases hq : s.frame_queue with
  | nil =>
    cases r with
    | none => simp [handle_distribute_iteration, hq] at h
    | some cid =>
      cases hc : s.current_frame_data with
      | none => simp [handle_distribute_iteration, hq, hc] at h
      | some cfd =>
        by_cases hlt : s.last_frame_sent < cfd.frame_index
        · have hred : (handle_distribute_iteration s (some cid)).2 =
              some ⟨cid, cfd.frame_index, cfd.prompt, cfd.frame⟩ := by
            simp [handle_distribute_iteration, hq, hc, hlt]
          rw [hred] at h
          obtain rfl := (Option.some.inj h).symm
          refine ⟨hlt, ?_⟩
          simp [handle_distribute_iteration, hq, hc, hlt]
        · simp [handle_distribute_iteration, hq, hc, hlt] at h
  | cons fd rest =>
    cases r with
    | none => simp [handle_distribute_iteration, hq] at h
    | some cid =>
      by_cases hlt : s.last_frame_sent < fd.frame_index
      · have hred : (handle_distribute_iteration s (some cid)).2 =
            some ⟨cid, fd.frame_index, fd.prompt, fd.frame⟩ := by
          simp [handle_distribute_iteration, hq, hlt]
        rw [hred] at h
        obtain rfl := (Option.some.inj h).symm
        refine ⟨hlt, ?_⟩
        simp [handle_distribute_iteration, hq, hlt]
      · simp [handle_distribute_iteration, hq, hlt] at h

theorem applyOp_last_mono (s : DState) (op : Op) :
    s.last_frame_sent ≤ (applyOp s op).last_frame_sent := by
  cases op with
  | submit f ts p => exact le_of_eq (submit_last_sent s f ts p).symm
  | serve r => exact serve_last_mono s r
  | ingest msg => exact le_of_eq (ingest_last_sent s msg).symm
  | tick => exact le_of_eq (tick_last_sent s).symm

theorem runOpsOut_sent_gt (ops : List Op) :
    ∀ (s : DState) (m : SentMsg), m ∈ (runOpsOut s ops).2 →
      s.last_frame_sent < m.frame_index := by
  induction ops with
  | nil => intro s m hm; simp [runOpsOut] at hm
  | cons op rest ih =>
    intro s m hm
    simp only [runOpsOut] at hm
    cases op with
    | serve r =>
      simp only [List.mem_append] at hm
      rcases hm with hm | hm
      · have : (handle_distribute_iteration s r).2 = some m := by
          cases hs : (handle_distribute_iteration s r).2 with
          | none => rw [hs] at hm; simp at hm
          | some m' =>
            rw [hs] at hm
            simp only [Option.toList_some, List.mem_singleton] at hm
            rw [hm]
        exact (serve_sent_spec s r m this).1
      · exact lt_of_le_of_lt (serve_last_mono s r) (ih _ m hm)
    | submit f ts p =>
      simp only [List.nil_append] at hm
      exact lt_of_le_of_lt (applyOp_last_mono s (.submit f ts p)) (ih _ m hm)
    | ingest msg =>
      simp only [List.nil_append] at hm
      exact lt_of_le_of_lt (applyOp_last_mono s (.ingest msg)) (ih _ m hm)
    | tick =>
      simp only [List.nil_append] at hm
      exact lt_of_le_of_lt (applyOp_last_mono s .tick) (ih _ m hm)

/-- C4 (amended): along any run of the distributor, the frame indices of
the messages sent on the distribution socket are strictly increasing: no
frame index is ever transmitted twice, to the same client or to distinct
clients.  The single `last_frame_sent` watermark suppresses duplicates
globally, so a given frame is never served to two distinct worker
clients. -/
theorem no_frame_index_sent_twice (s : DState) (ops : List Op) :
    List.Pairwise (fun m₁ m₂ : SentMsg => m₁.frame_index < m₂.frame_index)
      (runOpsOut s ops).2 := by
  induction ops generalizing s with
  | nil => simp [runOpsOut]
  | cons op rest ih =>
    simp only [runOpsOut]
    cases op with
    | serve r =>
      cases hs : (handle_distribute_iteration s r).2 with
      | none =>
        simp only [hs, Option.toList_none, List.nil_append]
        exact ih _
      | some m =>
        simp only [hs, Option.toList_some, List.singleton_append]
        refine List.Pairwise.cons ?_ (ih _)
        intro b hb
        have h1 := (serve_sent_spec s r m hs).2
        have h2 := runOpsOut_sent_gt rest _ b hb
        rw [h1] at h2
        exact h2
    | submit f ts p =>
      simp only [List.nil_append]
      exact ih _
    | ingest msg =>
      simp only [List.nil_append]
      exact ih _
    | tick =>
      simp only [List.nil_append]
      exact ih _

/-- C4 (counterexample): one captured frame sits in the capture slot
while two distinct clients (1 and 2) each send READY; only client 1 is
served, the second READY for the same frame is ignored — the same frame
is never transmitted to two distinct clients. -/
theorem second_ready_same_frame_unserved :
    (runOpsOut initState
      [.submit 42 0 "p", .serve (some 1), .serve (some 2)]).2 =
      [⟨1, 0, "p", 42⟩] := by
  rfl

/-! `cleanup_old_frames` bounds the buffer and evicts smallest-first. -/

theorem cleanup_length_le (s : DState) :
    (cleanup_old_frames s).received_frames.length ≤ s.frame_buffer_size := by
  simp only [cleanup_old_frames]
  split
  · rename_i h
    simp only [List.length_drop]
    omega
  · rename_i h
    exact Nat.le_of_not_lt h

theorem cleanup_evict_smallest (s : DState)
    (hsorted : List.Pairwise (· < ·) (bufKeys s.received_frames)) :
    ∀ k₁ ∈ bufKeys s.received_frames, s.current_display_frame ≤ k₁ →
      k₁ ∉ bufKeys (cleanup_old_frames s).received_frames →
      ∀ k₂ ∈ bufKeys (cleanup_old_frames s).received_frames, k₁ < k₂ := by
  intro k₁ hk₁ hge hnot k₂ hk₂
  have hkept_mem : k₁ ∈ bufKeys (s.received_frames.filter
      (fun p => !decide (p.1 < s.current_display_frame))) := by
    simp only [bufKeys, List.mem_map] at hk₁ ⊢
    obtain ⟨p, hp, rfl⟩ := hk₁
    exact ⟨p, List.mem_filter.mpr ⟨hp, by simpa using hge⟩, rfl⟩
  have hkept_sorted : List.Pairwise (· < ·) (bufKeys (s.received_frames.filter
      (fun p => !decide (p.1 < s.current_display_frame)))) :=
    List.Pairwise.sublist (List.Sublist.map Prod.fst (List.filter_sublist _)) hsorted
  simp only [cleanup_old_frames] at hnot hk₂
  by_cases hc : s.frame_buffer_size < (s.received_frames.filter
      (fun p => !decide (p.1 < s.current_display_frame))).length
  · rw [if_pos hc] at hnot hk₂
    simp only at hnot hk₂
    rw [bufKeys, List.map_drop] at hnot hk₂
    set l := bufKeys (s.received_frames.filter
      (fun p => !decide (p.1 < s.current_display_frame))) with hl
    set n := (s.received_frames.filter
      (fun p => !decide (p.1 < s.current_display_frame))).length - s.frame_buffer_size with hn
    have hsplit : l.take n ++ l.drop n = l := List.take_append_drop n l
    have hpair : List.Pairwise (· < ·) (l.take n ++ l.drop n) := by
      rw [hsplit]
      exact hkept_sorted
    have hk₁take : k₁ ∈ l.take n := by
      have hmem : k₁ ∈ l.take n ++ l.drop n := by rw [hsplit]; exact hkept_mem
      rcases List.mem_append.mp hmem with h | h
      · exact h
      · exact absurd h hnot
    exact (List.pairwise_append.mp hpair).2.2 k₁ hk₁take k₂ hk₂
  · rw [if_neg hc] at hnot
    simp only at hnot
    exact absurd hkept_mem hnot

/-- The maximal buffered index survives `cleanup_old_frames` whenever it
is at least the display cursor and the capacity is positive. -/
theorem cleanup_keeps_max (s : DState) (m : Int)
    (hsorted : List.Pairwise (· < ·) (bufKeys s.received_frames))
    (hcap : 0 < s.frame_buffer_size)
    (hmax : ∀ k ∈ bufKeys s.received_frames, k ≤ m)
    (hm : m ∈ bufKeys s.received_frames)
    (hge : s.current_display_frame ≤ m) :
    m ∈ bufKeys (cleanup_old_frames s).received_frames := by
  by_contra hin
  have hkept_mem : m ∈ bufKeys (s.received_frames.filter
      (fun p => !decide (p.1 < s.current_display_frame))) := by
    simp only [bufKeys, List.mem_map] at hm ⊢
    obtain ⟨p, hp, rfl⟩ := hm
    exact ⟨p, List.mem_filter.mpr ⟨hp, by simpa using hge⟩, rfl⟩
  have hlen : 0 < (cleanup_old_frames s).received_frames.length := by
    simp only [cleanup_old_frames]
    split
    · rename_i h
      simp only [List.length_drop]
      omega
    · rename_i h
      have hne : (s.received_frames.filter
          (fun p => !decide (p.1 < s.current_display_frame))) ≠ [] := by
        intro hnil
        rw [hnil] at hkept_mem
        simp [bufKeys] at hkept_mem
      exact List.length_pos.mpr hne
  obtain ⟨q, hq⟩ := List.exists_mem_of_length_pos hlen
  have hqkeys : q.1 ∈ bufKeys (cleanup_old_frames s).received_frames := by
    simp only [bufKeys, List.mem_map]
    exact ⟨q, hq, rfl⟩
  have hlt := cleanup_evict_smallest s hsorted m hm hge hin q.1 hqkeys
  have hle : q.1 ≤ m := hmax q.1 (by
    simp only [bufKeys, List.mem_map]
    exact ⟨q, (cleanup_mem s q hq).1, rfl⟩)
  exact absurd hlt (not_lt.mpr hle)

/-- C7: after every ingest step the reorder buffer holds at most
`frame_buffer_size = 50` entries; when an admitted insertion pushes the
size over the bound, the evicted entries are exactly the smallest-index
ones — every index that was present (or just inserted), not stale, and
is gone afterwards is smaller than every index that remains. -/
theorem ingest_buffer_bounded_evict_smallest (s : DState) (msg : InMsg)
    (hcap : s.frame_buffer_size = 50)
    (hlen : s.received_frames.length ≤ 50)
    (hsorted : List.Pairwise (· < ·) (bufKeys s.received_frames)) :
    (check_inverter_output s msg).received_frames.length ≤ 50 ∧
    (msg.frame_index ≤ s.frame_index_counter →
      ∀ k₁, (k₁ ∈ bufKeys s.received_frames ∨ k₁ = msg.frame_index) →
        s.current_display_frame ≤ k₁ →
        k₁ ∉ bufKeys (check_inverter_output s msg).received_frames →
        ∀ k₂ ∈ bufKeys (check_inverter_output s msg).received_frames, k₁ < k₂) := by
  by_cases hadm : s.frame_index_counter < msg.frame_index
  · have heq : check_inverter_output s msg = s := by
      simp only [check_inverter_output]
      rw [if_pos hadm]
    rw [heq]
    exact ⟨hlen, fun h => absurd hadm (not_lt.mpr h)⟩
  · simp only [check_inverter_output]
    rw [if_neg hadm]
    constructor
    · refine le_trans (cleanup_length_le _) ?_
      simp [log_complete_bufsize, hcap]
    · intro _ k₁ hk₁ hge hnot k₂ hk₂
      refine cleanup_evict_smallest _ ?_ k₁ ?_ ?_ hnot k₂ hk₂
      · show List.Pairwise (· < ·) (bufKeys (bufInsert msg.frame_index
          ⟨msg.inverted_data, msg.process_id, msg.start_time, msg.end_time⟩
          (log_frame_complete_timing s msg.frame_index msg.start_time msg.end_time
            "frame_inverted_received" msg.process_id).received_frames))
        rw [log_complete_received]
        exact pairwise_keys_bufInsert _ _ hsorted
      · show k₁ ∈ bufKeys (bufInsert msg.frame_index
          ⟨msg.inverted_data, msg.process_id, msg.start_time, msg.end_time⟩
          (log_frame_complete_timing s msg.frame_index msg.start_time msg.end_time
            "frame_inverted_received" msg.process_id).received_frames)
        rw [log_complete_received]
        rcases hk₁ with h | rfl
        · exact mem_keys_bufInsert_of_mem _ _ h
        · exact mem_keys_bufInsert_self _ _ _
      · show (log_frame_complete_timing s msg.frame_index msg.start_time msg.end_time
            "frame_inverted_received" msg.process_id).current_display_frame ≤ k₁
        rw [log_complete_current]
        exact hge

theorem ingest_buffer_bounded_evict_smallest_witness :
    initState.frame_buffer_size = 50 ∧
    initState.received_frames.length ≤ 50 ∧
    (check_inverter_output initState ⟨0, 1, 0, 0, 100⟩).received_frames.length ≤ 50 := by
  refine ⟨rfl, by decide, ?_⟩
  exact (ingest_buffer_bounded_evict_smallest initState ⟨0, 1, 0, 0, 100⟩
    rfl (by decide) (by decide)).1

theorem ingest_latest_eq (s : DState) (msg : InMsg)
    (hadm : ¬ s.frame_index_counter < msg.frame_index) :
    (check_inverter_output s msg).latest_received_frame =
      max s.latest_received_frame msg.frame_index := by
  simp only [check_inverter_output]
  rw [if_neg hadm, cleanup_latest]
  show max (log_frame_complete_timing s msg.frame_index msg.start_time msg.end_time
      "frame_inverted_received" msg.process_id).latest_received_frame msg.frame_index =
    max s.latest_received_frame msg.frame_index
  rw [log_complete_latest]

/-- C9: `check_inverter_output` drops a frame only when its index is
strictly greater than `frame_index_counter`.  Since `add_frame_for_distribution`
assigns index `counter` and then increments (indices assigned so far are
`0..counter-1`), a processed frame whose index equals the current counter
— never assigned to any captured frame — passes the check: it is inserted
into the reorder buffer and raises `latest_received_frame`. -/
theorem counter_boundary_frame_admitted (s : DState) (msg : InMsg)
    (hidx : msg.frame_index = s.frame_index_counter)
    (hkeys : ∀ k ∈ bufKeys s.received_frames, k ≤ s.frame_index_counter)
    (hcur : s.current_display_frame ≤ s.frame_index_counter)
    (hsorted : List.Pairwise (· < ·) (bufKeys s.received_frames))
    (hcap : s.frame_buffer_size = 50) :
    (∀ (u : DState) (f ts : Nat) (p : String),
      (add_frame_for_distribution u f ts p).frame_index_counter = u.frame_index_counter + 1 ∧
      ((add_frame_for_distribution u f ts p).frame_queue.getLast?).map Frame.frame_index =
        some u.frame_index_counter) ∧
    msg.frame_index ∈ bufKeys (check_inverter_output s msg).received_frames ∧
    (check_inverter_output s msg).latest_received_frame =
      max s.latest_received_frame msg.frame_index ∧
    (s.latest_received_frame < msg.frame_index →
      s.latest_received_frame < (check_inverter_output s msg).latest_received_frame) := by
  have hadm : ¬ s.frame_index_counter < msg.frame_index := by
    rw [hidx]
    exact lt_irrefl _
  refine ⟨?_, ?_, ingest_latest_eq s msg hadm, ?_⟩
  · intro u f ts p
    constructor
    · simp only [add_frame_for_distribution]
      split
      · rw [log_timing_counter]
      · rfl
    · simp only [add_frame_for_distribution]
      split
      · rw [log_timing_queue]
        simp [List.getLast?_concat]
      · simp [List.getLast?_concat]
  · simp only [check_inverter_output]
    rw [if_neg hadm]
    refine cleanup_keeps_max _ msg.frame_index ?_ ?_ ?_ ?_ ?_
    · show List.Pairwise (· < ·) (bufKeys (bufInsert msg.frame_index
        ⟨msg.inverted_data, msg.process_id, msg.start_time, msg.end_time⟩
        (log_frame_complete_timing s msg.frame_index msg.start_time msg.end_time
          "frame_inverted_received" msg.process_id).received_frames))
      rw [log_complete_received]
      exact pairwise_keys_bufInsert _ _ hsorted
    · show 0 < (log_frame_complete_timing s msg.frame_index msg.start_time msg.end_time
        "frame_inverted_received" msg.process_id).frame_buffer_size
      rw [log_complete_bufsize, hcap]
      norm_num
    · show ∀ k ∈ bufKeys (bufInsert msg.frame_index
        ⟨msg.inverted_data, msg.process_id, msg.start_time, msg.end_time⟩
        (log_frame_complete_timing s msg.frame_index msg.start_time msg.end_time
          "frame_inverted_received" msg.process_id).received_frames), k ≤ msg.frame_index
      rw [log_complete_received]
      intro k hk
      rcases mem_keys_of_bufInsert hk with rfl | h
      · exact le_refl _
      · rw [hidx]
        exact hkeys k h
    · show msg.frame_index ∈ bufKeys (bufInsert msg.frame_index
        ⟨msg.inverted_data, msg.process_id, msg.start_time, msg.end_time⟩
        (log_frame_complete_timing s msg.frame_index msg.start_time msg.end_time
          "frame_inverted_received" msg.process_id).received_frames)
      exact mem_keys_bufInsert_self _ _ _
    · show (log_frame_complete_timing s msg.frame_index msg.start_time msg.end_time
        "frame_inverted_received" msg.process_id).current_display_frame ≤ msg.frame_index
      rw [log_complete_current, hidx]
      exact hcur
  · intro hlt
    rw [ingest_latest_eq s msg hadm]
    exact lt_max_of_lt_right hlt

theorem counter_boundary_frame_admitted_witness :
    ((⟨0, 1, 0, 0, 100⟩ : InMsg).frame_index = initState.frame_index_counter) ∧
    (0 : Int) ∈ bufKeys (check_inverter_output initState ⟨0, 1, 0, 0, 100⟩).received_frames ∧
    (check_inverter_output initState ⟨0, 1, 0, 0, 100⟩).latest_received_frame =
      max initState.latest_received_frame 0 := by
  have h := counter_boundary_frame_admitted initState ⟨0, 1, 0, 0, 100⟩
    rfl (by decide) (by decide) (by decide) rfl
  exact ⟨rfl, h.2.1, h.2.2.1⟩

/-! Worker-loop run lemmas. -/

theorem worker_run_nil (b pid : Nat) (f : List Nat → String → List Nat)
    (s : WorkerState) : worker_run b pid f s [] = (s, []) := rfl

theorem worker_run_cons (b pid : Nat) (f : List Nat → String → List Nat)
    (s : WorkerState) (m : WMsg) (msgs : List WMsg) :
    worker_run b pid f s (m :: msgs) =
      ((worker_run b pid f (worker_receive b pid f s m).1 msgs).1,
        (worker_receive b pid f s m).2 ++
          (worker_run b pid f (worker_receive b pid f s m).1 msgs).2) := rfl

theorem worker_receive_partial (b pid : Nat) (f : List Nat → String → List Nat)
    (a : List Int) (bb : List Nat) (c : Nat) (m : WMsg) (h : a.length + 1 < b) :
    worker_receive b pid f ⟨a, bb, c⟩ m =
      (⟨a ++ [m.frame_index], bb ++ [m.frame_bytes], c⟩, []) := by
  have hcond : ((⟨a, bb, c⟩ : WorkerState).frame_index_batch ++ [m.frame_index]).length < b := by
    show (a ++ [m.frame_index]).length < b
    simp only [List.length_append, List.length_singleton]
    omega
  simp only [worker_receive]
  rw [if_pos hcond]

theorem worker_receive_full (b pid : Nat) (f : List Nat → String → List Nat)
    (a : List Int) (bb : List Nat) (c : Nat) (m : WMsg) (h : ¬ a.length + 1 < b) :
    worker_receive b pid f ⟨a, bb, c⟩ m =
      (⟨[], [], c + 2⟩,
        batchOut b pid c (a ++ [m.frame_index]) (f (bb ++ [m.frame_bytes]) m.prompt)) := by
  have hcond : ¬ ((⟨a, bb, c⟩ : WorkerState).frame_index_batch ++ [m.frame_index]).length < b := by
    show ¬ (a ++ [m.frame_index]).length < b
    simp only [List.length_append, List.length_singleton]
    omega
  simp only [worker_receive]
  rw [if_neg hcond]
  rfl

theorem worker_run_append (b pid : Nat) (f : List Nat → String → List Nat)
    (xs ys : List WMsg) : ∀ s : WorkerState,
    worker_run b pid f s (xs ++ ys) =
      ((worker_run b pid f (worker_run b pid f s xs).1 ys).1,
        (worker_run b pid f s xs).2 ++ (worker_run b pid f (worker_run b pid f s xs).1 ys).2) := by
  induction xs with
  | nil => intro s; rw [worker_run_nil]; simp
  | cons m ms ih =>
    intro s
    rw [List.cons_append, worker_run_cons, ih, worker_run_cons]
    simp [List.append_assoc]

theorem worker_run_no_flush (b pid : Nat) (f : List Nat → String → List Nat) :
    ∀ (xs : List WMsg) (a : List Int) (bb : List Nat) (c : Nat),
      a.length + xs.length < b →
      worker_run b pid f ⟨a, bb, c⟩ xs =
        (⟨a ++ xs.map WMsg.frame_index, bb ++ xs.map WMsg.frame_bytes, c⟩, []) := by
  intro xs
  induction xs with
  | nil => intro a bb c h; rw [worker_run_nil]; simp
  | cons m ms ih =>
    intro a bb c h
    simp only [List.length_cons] at h
    rw [worker_run_cons, worker_receive_partial b pid f a bb c m (by omega)]
    rw [ih (a ++ [m.frame_index]) (bb ++ [m.frame_bytes]) c
      (by simp only [List.length_append, List.length_singleton]; omega)]
    simp

theorem worker_run_exact_flush (b pid : Nat) (f : List Nat → String → List Nat) :
    ∀ (xs : List WMsg) (a : List Int) (bb : List Nat) (c : Nat),
      a.length + xs.length = b → xs ≠ [] →
      worker_run b pid f ⟨a, bb, c⟩ xs =
        (⟨[], [], c + 2⟩,
          batchOut b pid c (a ++ xs.map WMsg.frame_index)
            (f (bb ++ xs.map WMsg.frame_bytes)
              ((xs.getLast?.map WMsg.prompt).getD ""))) := by
  intro xs
  induction xs with
  | nil => intro a bb c h hne; exact absurd rfl hne
  | cons m ms ih =>
    intro a bb c h hne
    simp only [List.length_cons] at h
    cases ms with
    | nil =>
      simp only [List.length_nil] at h
      rw [worker_run_cons, worker_receive_full b pid f a bb c m (by omega)]
      rw [worker_run_nil]
      simp [batchOut]
    | cons m' ms' =>
      simp only [List.length_cons] at h
      rw [worker_run_cons, worker_receive_partial b pid f a bb c m (by omega)]
      rw [ih (a ++ [m.frame_index]) (bb ++ [m.frame_bytes]) c
        (by simp only [List.length_append, List.length_singleton, List.length_cons, List.length_nil]; omega)
        (List.cons_ne_nil m' ms')]
      simp [List.append_assoc, List.getLast?_cons_cons]

theorem batchOut_length (b pid c : Nat) (idxs : List Int) (processed : List Nat) :
    (batchOut b pid c idxs processed).length = b := by
  simp [batchOut]

/-- The worker output stream decomposes into full batches: its length is
`b * (number of completed batches)`, and the `k`-th block of `b` results
is the `k`-th block of `b` received messages transformed in one shot —
shared `(start, end)` interval `(c + 2k, c + 2k + 1)`, indices in input
order, prompt of the block's last message. -/
theorem worker_run_chunks (b pid : Nat) (f : List Nat → String → List Nat) (hb : 1 ≤ b) :
    ∀ (n : Nat) (msgs : List WMsg) (c : Nat), msgs.length = n →
      (worker_run b pid f ⟨[], [], c⟩ msgs).2.length = b * (msgs.length / b) ∧
      ∀ k, b * (k + 1) ≤ msgs.length →
        ((worker_run b pid f ⟨[], [], c⟩ msgs).2.drop (b * k)).take b =
          batchOut b pid (c + 2 * k)
            (((msgs.drop (b * k)).take b).map WMsg.frame_index)
            (f (((msgs.drop (b * k)).take b).map WMsg.frame_bytes)
              ((((msgs.drop (b * k)).take b).getLast?.map WMsg.prompt).getD "")) := by
  intro n
  induction n using Nat.strong_induction_on with
  | _ n ih =>
    intro msgs c hlen
    by_cases hlt : msgs.length < b
    · rw [worker_run_no_flush b pid f msgs [] [] c (by simpa using hlt)]
      constructor
      · rw [Nat.div_eq_of_lt hlt]
        simp
      · intro k hk
        exfalso
        have hmul : b ≤ b * (k + 1) := Nat.le_mul_of_pos_right b (by omega)
        omega
    · have hble : b ≤ msgs.length := not_lt.mp hlt
      have hsplit : msgs.take b ++ msgs.drop b = msgs := List.take_append_drop b msgs
      have htlen : (msgs.take b).length = b := List.length_take_of_le hble
      have happ := worker_run_append b pid f (msgs.take b) (msgs.drop b) ⟨[], [], c⟩
      rw [hsplit] at happ
      have hne : msgs.take b ≠ [] := by
        intro h0
        rw [h0] at htlen
        simp at htlen
        omega
      have hflush := worker_run_exact_flush b pid f (msgs.take b) [] [] c
        (by simpa using htlen) hne
      rw [hflush] at happ
      obtain ⟨ihlen, ihslice⟩ := ih (msgs.length - b) (by omega) (msgs.drop b) (c + 2)
        (by rw [List.length_drop])
      rw [happ]
      constructor
      · simp only [List.length_append, List.nil_append]
        rw [batchOut_length, ihlen, List.length_drop,
          Nat.div_eq_sub_div (by omega) hble]
        ring
      · intro k hk
        cases k with
        | zero =>
          simp only [Nat.mul_zero, List.drop_zero, Nat.mul_one, List.nil_append] at hk ⊢
          rw [List.take_left' (batchOut_length b pid c _ _)]
          simp only [List.nil_append] at hflush ⊢
          rfl
        | succ k' =>
          have hdrop : ∀ outs' : List WOut,
              ((batchOut b pid c ((msgs.take b).map WMsg.frame_index)
                (f ((msgs.take b).map WMsg.frame_bytes)
                  (((msgs.take b).getLast?.map WMsg.prompt).getD "")) ++ outs').drop
                (b * (k' + 1))) = outs'.drop (b * k') := by
            intro outs'
            rw [show b * (k' + 1) = (batchOut b pid c ((msgs.take b).map WMsg.frame_index)
              (f ((msgs.take b).map WMsg.frame_bytes)
                (((msgs.take b).getLast?.map WMsg.prompt).getD ""))).length + b * k' from by
              rw [batchOut_length]; ring]
            exact List.drop_append (b * k')
          have hsl := ihslice k' (by
            rw [List.length_drop]
            have hexp : b * (k' + 1 + 1) = b * (k' + 1) + b := by ring
            rw [hexp] at hk
            omega)
          rw [List.drop_drop] at hsl
          rw [show b + b * k' = b * (k' + 1) from by ring] at hsl
          rw [show c + 2 + 2 * k' = c + 2 * (k' + 1) from by ring] at hsl
          simp only [List.nil_append]
          rw [hdrop]
          exact hsl

/-- C8: for every batch completed by the worker loop with
`batch_size = b ≥ 1`, exactly `b` result messages are pushed to the
collection channel; the `k`-th completed batch's messages all carry the
identical `(start_time, end_time)` pair recorded around the single
transform invocation (here `(c + 2k, c + 2k + 1)`), carry the original
frame indices of the batch in input order paired positionally with the
transform outputs, and the transform is invoked with the prompt received
with the last frame of the batch. -/
theorem worker_batches_shape (b pid : Nat) (f : List Nat → String → List Nat)
    (c : Nat) (msgs : List WMsg) (hb : 1 ≤ b) :
    (worker_run b pid f ⟨[], [], c⟩ msgs).2.length = b * (msgs.length / b) ∧
    ∀ k, b * (k + 1) ≤ msgs.length →
      ((worker_run b pid f ⟨[], [], c⟩ msgs).2.drop (b * k)).take b =
        batchOut b pid (c + 2 * k)
          (((msgs.drop (b * k)).take b).map WMsg.frame_index)
          (f (((msgs.drop (b * k)).take b).map WMsg.frame_bytes)
            ((((msgs.drop (b * k)).take b).getLast?.map WMsg.prompt).getD "")) :=
  worker_run_chunks b pid f hb msgs.length msgs c rfl

theorem worker_batches_shape_witness :
    (1 ≤ 2) ∧
    (worker_run 2 9 (fun l _ => l.map (fun x => x + 1)) ⟨[], [], 0⟩
      [⟨10, "p0", 100⟩, ⟨11, "p1", 101⟩]).2.length =
      2 * (([(⟨10, "p0", 100⟩ : WMsg), ⟨11, "p1", 101⟩].length) / 2) ∧
    ((worker_run 2 9 (fun l _ => l.map (fun x => x + 1)) ⟨[], [], 0⟩
      [⟨10, "p0", 100⟩, ⟨11, "p1", 101⟩]).2.drop (2 * 0)).take 2 =
      batchOut 2 9 (0 + 2 * 0)
        ((([(⟨10, "p0", 100⟩ : WMsg), ⟨11, "p1", 101⟩].drop (2 * 0)).take 2).map WMsg.frame_index)
        ((([(⟨10, "p0", 100⟩ : WMsg), ⟨11, "p1", 101⟩].drop (2 * 0)).take 2).map WMsg.frame_bytes |>.map (fun x => x + 1)) := by
  have h := worker_batches_shape 2 9 (fun l _ => l.map (fun x => x + 1)) 0
    [⟨10, "p0", 100⟩, ⟨11, "p1", 101⟩] (by decide)
  exact ⟨by decide, h.1, h.2 0 (by decide)⟩

/-- C10: the worker pushes results to the collection channel only in
iterations where the pending batch reaches exactly `batch_size` members:
a receive that leaves the batch short emits nothing, and a run delivered
fewer than `batch_size` frames in total returns none of them. -/
theorem worker_flushes_only_full_batches (b pid : Nat) (f : List Nat → String → List Nat) :
    (∀ (s : WorkerState) (m : WMsg),
      s.frame_index_batch.length + 1 < b → (worker_receive b pid f s m).2 = []) ∧
    (∀ (c : Nat) (msgs : List WMsg), msgs.length < b →
      (worker_run b pid f ⟨[], [], c⟩ msgs).2 = []) := by
  constructor
  · intro s m h
    simp only [worker_receive]
    rw [if_pos (by simp only [List.length_append, List.length_singleton]; omega)]
  · intro c msgs h
    rw [worker_run_no_flush b pid f msgs [] [] c (by simpa using h)]

theorem worker_flushes_only_full_batches_witness :
    (([(⟨5, "p", 9⟩ : WMsg)].length) < 2) ∧
    (worker_run 2 0 (fun l _ => l) ⟨[], [], 0⟩ [⟨5, "p", 9⟩]).2 = [] ∧
    (worker_receive 2 0 (fun l _ => l) ⟨[], [], 0⟩ ⟨5, "p", 9⟩).2 = [] := by
  have h := worker_flushes_only_full_batches 2 0 (fun l _ => l)
  exact ⟨by decide, h.2 0 [⟨5, "p", 9⟩] (by decide), h.1 ⟨[], [], 0⟩ ⟨5, "p", 9⟩ (by decide)⟩

end DVF
